import Mathlib

/-!
# Verification of the geoip range-indexed store and Latin-1 transcoder

A shallow embedding of the `geoip` Go package.  The repository stores
IP-address ranges in a `google/btree` ordered container keyed by the
comparator `Less(a, b) = a.HighIP < b.LowIP`, loads them from delimited
text rows, and answers point-containment queries.  A second component
streams ISO-8859-1 bytes as UTF-8 with a one-byte pending state carried
across `Read` calls.

The btree library is comparator-generic and not part of the repository
source; it is modelled here as a sorted list with the library's observable
operations: `ReplaceOrInsert` walks to the first element not less than the
new item and replaces it when the two are comparator-equal, and `Get`
finds the element comparator-equal to the query key, if any.  All
repository functions are translated from their Go sources, keeping their
names.  Go `uint32` values are modelled as `Nat` (every parsed value is
range-checked below `2^32` exactly where the Go code calls
`strconv.ParseUint(_, 10, 32)`), and file contents as `List Nat` of byte
values.
-/

set_option maxRecDepth 4096
set_option linter.dupNamespace false

namespace GeoIP

/-- Model of `btree.ReplaceOrInsert` on a comparator-sorted list: walk past
elements less than `x`; insert `x` before the first element `e` with
`less x e`; if instead `e` is comparator-equal to `x` (neither less),
replace `e` by `x`. -/
def btreeInsert (less : α → α → Bool) (x : α) : List α → List α
  | [] => [x]
  | e :: rest =>
    if less e x then e :: btreeInsert less x rest
    else if less x e then x :: e :: rest
    else x :: rest
/-- Model of `btree.Get`: find the first stored element not less than the
key; return it when it is comparator-equal to the key (the key is not less
than it either), otherwise report not-found. -/
def btreeGet (less : α → α → Bool) (l : List α) (k : α) : Option α :=
  match l.find? (fun e => !less e k) with
  | some e => if less k e then none else some e
  | none => none

/-- Model of `btree.Len`: number of stored items. -/
def btreeSize (l : List α) : Nat := l.length

/-! ## Generic facts about the interval comparator

Both `Block.Less` and `ASN.Less` compare ranges by `a.HighIP < b.LowIP`.
The lemmas are proved once over projections `lo`, `hi`. -/

section Interval

variable {α : Type} (lo hi : α → Nat)

/-- The interval comparator shared by `Block.Less` and `ASN.Less`:
a range is less than another iff it ends strictly before the other begins. -/
def intvLess (a b : α) : Bool := hi a < lo b

/-- The load invariant: consecutive stored ranges are strictly separated. -/
def intvSorted (l : List α) : Prop := List.Chain' (fun a b => hi a < lo b) l

/-- Two ranges are disjoint when one ends strictly before the other begins. -/
def intvDisjoint (a b : α) : Prop := hi a < lo b ∨ hi b < lo a

end Interval

/-! ## The repository's record types and range indexes -/

/-- A `Block` is a range of IP addresses (from `LowIP` to `HighIP`)
matching a given location ID (`LocId`).  Go `uint32` fields become `Nat`. -/
structure Block where
  LowIP : Nat
  HighIP : Nat
  LocId : Nat
deriving Repr, DecidableEq

/-- Comparator `Block.Less`: the current block is less than the argument iff
`block.HighIP < than.LowIP`. -/
def Block.Less (block than : Block) : Bool := block.HighIP < than.LowIP

/-- All blocks are stored in a btree, modelled as its sorted item list. -/
abbrev Blocks := List Block

/-- Lookup `Blocks.Get`: search the tree with the transient range `Block{IP, IP, 0}`. -/
def Blocks.Get (blocks : Blocks) (IP : Nat) : Option Block :=
  btreeGet Block.Less blocks ⟨IP, IP, 0⟩

/-- An `ASN` record is a range of IP addresses matching an ASN string. -/
structure ASN where
  LowIP : Nat
  HighIP : Nat
  ASN : String
deriving Repr, DecidableEq

/-- Comparator `ASN.Less`: `asn.HighIP < than.LowIP`. -/
def ASN.Less (asn than : GeoIP.ASN) : Bool := asn.HighIP < than.LowIP

/-- All ASNs are kept in a btree, modelled as its sorted item list. -/
abbrev ASNs := List ASN

/-- Lookup `ASNs.Get`: search the tree with the transient range `ASN{IP, IP, ""}`. -/
def ASNs.Get (asns : ASNs) (IP : Nat) : Option ASN :=
  btreeGet ASN.Less asns ⟨IP, IP, ""⟩

/-- A `Country` holds a 2-character ISO 3166-1 code and a name. -/
structure Country where
  Code : String
  Name : String
deriving Repr, DecidableEq

/-- Comparator `Country.Less`: plain string comparison of the codes. -/
def Country.Less (country than : Country) : Bool := country.Code < than.Code

/-- Countries btree, modelled as its sorted item list. -/
abbrev Countries := List Country

/-- Lookup `Countries.Get`: search with the transient entry `Country{code, ""}`. -/
def Countries.Get (countries : Countries) (country_code : String) : Option Country :=
  btreeGet Country.Less countries ⟨country_code, ""⟩

/-- Modelled from the spec: the regions source file of the repository is
not under `src/` (only its callers are).  The spec describes the region
table as the same degenerate point-range container as the country table,
keyed by region code with a name payload. -/
structure Region where
  Code : String
  Name : String
deriving Repr, DecidableEq

/-- Modelled from the spec: string comparison of region codes, mirroring
`Country.Less`. -/
def Region.Less (region than : Region) : Bool := region.Code < than.Code

/-- Regions btree, modelled as its sorted item list. -/
abbrev Regions := List Region

/-- Modelled from the spec: exact-match lookup of a region code, mirroring
`Countries.Get`. -/
def Regions.Get (regions : Regions) (code : String) : Option Region :=
  btreeGet Region.Less regions ⟨code, ""⟩

/-! ## Loaders

The loaders iterate over CSV records (`r.FieldsPerRecord = -1`, so any
column count is accepted by the CSV layer) and skip rows that do not have
the expected column count or whose numeric fields fail to parse.  They are
modelled over the list of already-split records, each a list of field
strings. -/

/-- Digit-string parser shared by the `strconv` models: a nonempty string
of ASCII decimal digits, otherwise an error. -/
def goParseDigits (l : List Char) : Option Nat :=
  if l ≠ [] ∧ l.all (fun c => c.isDigit) then
    some (l.foldl (fun acc c => 10 * acc + (c.toNat - 48)) 0)
  else none

/-- Model of `strconv.ParseUint(s, 10, 32)`: no sign is permitted, and a
value of 2^32 or more is a range error. -/
def goParseUint32 (s : String) : Option Nat :=
  (goParseDigits s.data).bind fun v => if v < 2 ^ 32 then some v else none

/-- Model of `strconv.Atoi` (`ParseInt(s, 10, 0)` with 64-bit `int`):
an optional sign followed by decimal digits, range-checked to `int64`. -/
def goAtoi (s : String) : Option Int :=
  match s.data with
  | '+' :: rest => (goParseDigits rest).bind fun n =>
      if n < 2 ^ 63 then some (n : Int) else none
  | '-' :: rest => (goParseDigits rest).bind fun n =>
      if n ≤ 2 ^ 63 then some (-(n : Int)) else none
  | l => (goParseDigits l).bind fun n =>
      if n < 2 ^ 63 then some (n : Int) else none

/-- One iteration of the `LoadBlocksFile` read loop: only lines with 3
values whose three fields parse as decimal `uint32` insert a `Block`;
every other line is skipped. -/
def blocksStep (t : Blocks) (values : List String) : Blocks :=
  if values.length = 3 then
    match goParseUint32 (values.getD 0 ""), goParseUint32 (values.getD 1 ""),
        goParseUint32 (values.getD 2 "") with
    | some low_ip, some high_ip, some loc_id =>
        btreeInsert Block.Less ⟨low_ip, high_ip, loc_id⟩ t
    | _, _, _ => t
  else t

/-- Loader `LoadBlocksFile` over the pre-parsed CSV records of the blocks file:
fold the read loop over the rows, starting from the fresh btree. -/
def LoadBlocksFile (rows : List (List String)) : Blocks :=
  rows.foldl blocksStep []

/-- One iteration of the `LoadASNFile` read loop: only lines with 3 values
whose first two fields parse as decimal `uint32` insert an `ASN` (the
third field is kept as the string payload). -/
def asnStep (t : ASNs) (values : List String) : ASNs :=
  if values.length = 3 then
    match goParseUint32 (values.getD 0 ""), goParseUint32 (values.getD 1 "") with
    | some low_ip, some high_ip =>
        btreeInsert ASN.Less ⟨low_ip, high_ip, values.getD 2 ""⟩ t
    | _, _ => t
  else t

/-- Loader `LoadASNFile` over the pre-parsed CSV records of the ASN file. -/
def LoadASNFile (rows : List (List String)) : ASNs :=
  rows.foldl asnStep []

/-- Holds all information about a location. -/
structure Location where
  Country : String
  Region : String
  City : String
  PostalCode : String
  Latitude : String
  Longitude : String
  MetroCode : String
  AreaCode : String
deriving Repr, DecidableEq

/-- Method `Location.GetCountry`: name of the location's country from the country
btree, or `""` when the tree was never loaded or the code is unknown.  The
Go global `countries_tree` is passed explicitly. -/
def Location.GetCountry (countries_tree : Option Countries) (loc : Location) : String :=
  match countries_tree with
  | none => ""
  | some t =>
    match Countries.Get t loc.Country with
    | none => ""
    | some country => country.Name

/-- Method `Location.GetRegion`: name of the location's region looked up by the
concatenated code `Sprintf("%s%s", loc.Country, loc.Region)`, or `""`. -/
def Location.GetRegion (regions_tree : Option Regions) (loc : Location) : String :=
  match regions_tree with
  | none => ""
  | some t =>
    match Regions.Get t (loc.Country ++ loc.Region) with
    | none => ""
    | some region => region.Name

/-- One iteration of the `LoadLocFile` read loop: a row with 9 values and
a parsable first field is written at `loc_list[locId]`; that Go slice
write panics (index out of range) when `locId` does not lie inside the
slice, which `none` models.  Other rows are skipped. -/
def locStep (line_count : Nat) (st : Option (List Location)) (values : List String) :
    Option (List Location) :=
  match st with
  | none => none
  | some loc_list =>
    if values.length = 9 then
      match goAtoi (values.getD 0 "") with
      | none => some loc_list
      | some locId =>
        if 0 ≤ locId ∧ locId < line_count then
          some (loc_list.set locId.toNat
            ⟨values.getD 1 "", values.getD 2 "", values.getD 3 "", values.getD 4 "",
             values.getD 5 "", values.getD 6 "", values.getD 7 "", values.getD 8 ""⟩)
        else none
    else some loc_list

/-- Loader `LoadLocFile` over the pre-parsed CSV records of the locations file: a
slice of `line_count` zero-value `Location`s is allocated (one per input
line), then each well-formed row is written at its own id. -/
def LoadLocFile (rows : List (List String)) : Option (List Location) :=
  rows.foldl (locStep rows.length)
    (some (List.replicate rows.length ⟨"", "", "", "", "", "", "", ""⟩))

/-! ## The lookup facade -/

/-- An IPv4 address as the four bytes `ip[12] … ip[15]` of a 16-byte
`net.IP`. -/
abbrev IPv4 := Nat × Nat × Nat × Nat

/-- The address computation from `GeoLocIPv4`:
`uint32(ip[15]) + 256*(uint32(ip[14]) + 256*(uint32(ip[13]) + 256*uint32(ip[12])))`. -/
def ipv4Addr : IPv4 → Nat
  | (b12, b13, b14, b15) => b15 + 256 * (b14 + 256 * (b13 + 256 * b12))

/-- The structure used to share geolocation information for a given IP.
Pointer fields that are always non-nil at construction are plain values;
`Asn` stays optional because `asn_tree.Get` may return nil. -/
structure GeoLocIp where
  Ip : IPv4
  Block : Block
  Location : Location
  Asn : Option ASN
  CountryName : String
  RegionName : String
deriving Repr, DecidableEq

/-- Outcome of a `GeoLocIPv4` call: a record, Go `nil`, or a runtime
panic (slice index out of range). -/
inductive GeoResult where
  | panicked
  | notFound
  | found (gli : GeoLocIp)
deriving Repr, DecidableEq

/-- Facade `GeoLocIPv4`: nil when any of the three tables was never loaded;
otherwise look the address up in the blocks tree, nil when no block
matches, and otherwise assemble the answer from
`locations[block.LocId]` — an access that panics when `LocId` is not
inside the locations slice.  The Go package-level tables are passed
explicitly; logging is a no-op. -/
def GeoLocIPv4 (locations : Option (List Location)) (blocks : Option Blocks)
    (asn_tree : Option ASNs) (countries_tree : Option Countries)
    (regions_tree : Option Regions) (ip : IPv4) : GeoResult :=
  match locations, blocks, asn_tree with
  | some locs, some blks, some asns =>
    let addr := ipv4Addr ip
    match Blocks.Get blks addr with
    | none => .notFound
    | some block =>
      if h : block.LocId < locs.length then
        let location := locs.get ⟨block.LocId, h⟩
        .found ⟨ip, block, location, ASNs.Get asns addr,
          Location.GetCountry countries_tree location,
          Location.GetRegion regions_tree location⟩
      else .panicked
  | _, _, _ => .notFound

/-! ## The ISO-8859-1 → UTF-8 streaming reader (`src/fileISO8859-1.go`)

The reader owns an open file, modelled as its byte contents `src` plus the
current offset `pos`, and the one-byte pending state `currentChar`
(`0` = idle).  `os.File.Read` on a regular file returns `io.EOF` exactly
when it reads zero bytes into a non-empty buffer; the boolean in the
`Read` result models `err == io.EOF` (no other error can occur on the
in-memory file). -/

/-- The reader state: the file (contents and offset) and the pending
second byte of a split 2-byte UTF-8 sequence. -/
structure fileLatin1Reader where
  src : List Nat
  pos : Nat
  currentChar : Nat
deriving Repr, DecidableEq

/-- The body of the conversion `for` loop of `fileLatin1Reader.Read`:
walk the bytes read from the file, stopping when the caller's buffer
(capacity `cap`) is full; bytes below `0x80` pass through, others expand
to two bytes, parking the second byte in `currentChar` when only one slot
is left.  Returns the written buffer, the number `i` of source bytes
consumed, and the final `currentChar`.  (`out` enters the loop already
holding the flushed pending byte, if any, so `currentChar` is `0` at
every loop entry.) -/
def latin1Loop (cap : Nat) : List Nat → List Nat → List Nat × Nat × Nat
  | [], out => (out, 0, 0)
  | b :: rest, out =>
    if cap ≤ out.length then (out, 0, 0)
    else if b < 0x80 then
      let r := latin1Loop cap rest (out ++ [b])
      (r.1, r.2.1 + 1, r.2.2)
    else
      let first := 0xC0 ||| ((b &&& 0xC0) >>> 6)
      let second := 0x80 ||| (b &&& 0x3F)
      if cap ≤ out.length + 1 then
        (out ++ [first], 1, second)
      else
        let r := latin1Loop cap rest (out ++ [first, second])
        (r.1, r.2.1 + 1, r.2.2)

/-- Method `fileLatin1Reader.Read` with a caller buffer of `cap` bytes
(`cap ≥ 1`; a zero-length buffer with a pending byte would panic in Go):
read up to `cap` raw bytes, flush a pending byte, run the conversion
loop, seek the file back by `i - n`, and demote `io.EOF` to success when
a pending byte remains.  Returns the bytes written into the caller's
buffer, the `err == io.EOF` flag, and the new reader state. -/
def fileLatin1Reader.Read (flr : fileLatin1Reader) (cap : Nat) :
    List Nat × Bool × fileLatin1Reader :=
  let buf := (flr.src.drop flr.pos).take cap
  let n := buf.length
  let eofErr := n = 0 ∧ 0 < cap
  let out0 : List Nat := if flr.currentChar ≠ 0 then [flr.currentChar] else []
  let r := latin1Loop cap buf out0
  let posFinal : Int := ((flr.pos : Int) + n) + ((r.2.1 : Int) - n)
  let flr' : fileLatin1Reader := ⟨flr.src, posFinal.toNat, r.2.2⟩
  if eofErr ∧ r.2.2 ≠ 0 then (r.1, false, flr')
  else (r.1, decide eofErr, flr')

/-- Reference per-byte expansion: the 2-byte UTF-8 encoding of a Latin-1
code point, or the byte itself below `0x80`. -/
def latin1ExpandByte (b : Nat) : List Nat :=
  if b < 0x80 then [b] else [0xC0 ||| ((b &&& 0xC0) >>> 6), 0x80 ||| (b &&& 0x3F)]

/-- Reference expansion of a whole byte sequence. -/
def latin1Expand (l : List Nat) : List Nat :=
  (l.map latin1ExpandByte).flatten

/-- The pending byte as a byte sequence (`0` is the idle sentinel). -/
def pendBytes (c : Nat) : List Nat := if c ≠ 0 then [c] else []

/-- Everything a reader state still owes its caller: the pending byte
followed by the expansion of the unread part of the file. -/
def latin1Rest (flr : fileLatin1Reader) : List Nat :=
  pendBytes flr.currentChar ++ latin1Expand (flr.src.drop flr.pos)

/-- The caller's drain loop (as in the repository's `TestLatin1Reader`):
keep calling `Read` with a fixed buffer size and concatenate the byte
counts returned, until a call returns zero bytes. -/
def latin1Drain (fuel : Nat) (flr : fileLatin1Reader) (cap : Nat) : List Nat :=
  match fuel with
  | 0 => []
  | fuel + 1 =>
    let r := flr.Read cap
    if r.1.length = 0 then [] else r.1 ++ latin1Drain fuel r.2.2 cap

/-- The Latin-1 bytes of the repository test's sample string
`"ÀÁÇÈÉABCDÊàáâçèéêîïòôùûÿ®E"`. -/
def latin1Sample : List Nat :=
  [0xc0, 0xc1, 0xc7, 0xc8, 0xc9, 0x41, 0x42, 0x43, 0x44, 0xca,
   0xe0, 0xe1, 0xe2, 0xe7, 0xe8, 0xe9, 0xea, 0xee, 0xef, 0xf2,
   0xf4, 0xf9, 0xfb, 0xff, 0xae, 0x45]

/-- Termination measure of a reader state: two output slots per unread
source byte plus one for a pending byte. -/
def latin1Measure (flr : fileLatin1Reader) : Nat :=
  2 * (flr.src.length - flr.pos) + (if flr.currentChar ≠ 0 then 1 else 0)

/-! ### One-call characterization of `Read` -/

/-- The raw bytes one call reads from the file. -/
def latin1Buf (flr : fileLatin1Reader) (cap : Nat) : List Nat :=
  (flr.src.drop flr.pos).take cap

/-- The conversion-loop result of one call, entered with the flushed
pending byte already in the output buffer. -/
def latin1R (flr : fileLatin1Reader) (cap : Nat) : List Nat × Nat × Nat :=
  latin1Loop cap (latin1Buf flr cap) (pendBytes flr.currentChar)
/-! ## Facts about the degenerate point-range (exact-key) container -/

/-- The invariant of the country btree: codes strictly increase. -/
def ctrySorted (l : List Country) : Prop :=
  List.Chain' (fun a b => a.Code < b.Code) l

/-! ## Lemmas -/

theorem btreeInsert_cons_lt {less : α → α → Bool} {e x : α} {l : List α}
    (h : less e x = true) :
    btreeInsert less x (e :: l) = e :: btreeInsert less x l := by
  simp [btreeInsert, h]

theorem btreeInsert_cons_gt {less : α → α → Bool} {e x : α} {l : List α}
    (h1 : less e x = false) (h2 : less x e = true) :
    btreeInsert less x (e :: l) = x :: e :: l := by
  simp [btreeInsert, h1, h2]

theorem btreeInsert_cons_eq {less : α → α → Bool} {e x : α} {l : List α}
    (h1 : less e x = false) (h2 : less x e = false) :
    btreeInsert less x (e :: l) = x :: l := by
  simp [btreeInsert, h1, h2]


section Interval

variable {α : Type} (lo hi : α → Nat)

theorem intvSorted_tail {h : α} {t : List α} (hs : intvSorted lo hi (h :: t)) :
    intvSorted lo hi t := hs.tail

/-- In a sorted list of valid ranges, every element of the tail starts
strictly after the head ends. -/
theorem intvSorted_head_lt {h : α} {t : List α}
    (hs : intvSorted lo hi (h :: t)) (hv : ∀ e ∈ h :: t, lo e ≤ hi e) :
    ∀ e ∈ t, hi h < lo e := by
  induction t generalizing h with
  | nil => intro e he; cases he
  | cons m t ih =>
    intro e he
    have hhm : hi h < lo m := (List.chain'_cons.mp hs).1
    cases he with
    | head => exact hhm
    | tail _ hmem =>
      have := ih (h := m) (List.chain'_cons.mp hs).2
        (fun e he => hv e (List.mem_cons_of_mem h he)) e hmem
      have hmv : lo m ≤ hi m := hv m (by simp)
      omega

/-- Lookup `btreeGet` with the interval comparator, queried with the unit range
`[p, p]`, returns exactly the stored range containing `p`. -/
theorem intvGet_mem {l : List α} (hs : intvSorted lo hi l)
    (hv : ∀ e ∈ l, lo e ≤ hi e) {k : α} {p : Nat} (hk1 : lo k = p) (hk2 : hi k = p)
    {r : α} (hr : r ∈ l) (h1 : lo r ≤ p) (h2 : p ≤ hi r) :
    btreeGet (intvLess lo hi) l k = some r := by
  induction l with
  | nil => cases hr
  | cons h t ih =>
    by_cases hph : p ≤ hi h
    · have hrh : r = h := by
        cases hr with
        | head => rfl
        | tail _ hmem =>
          have := intvSorted_head_lt lo hi hs hv r hmem
          omega
      subst hrh
      unfold btreeGet
      rw [List.find?_cons_of_pos]
      · simp only
        rw [if_neg]
        simp only [intvLess, decide_eq_true_eq]
        omega
      · simp only [intvLess, Bool.not_eq_eq_eq_not, Bool.not_true,
          decide_eq_false_iff_not]
        omega
    · have hrt : r ∈ t := by
        cases hr with
        | head => omega
        | tail _ hmem => exact hmem
      have := ih (intvSorted_tail lo hi hs)
        (fun e he => hv e (List.mem_cons_of_mem h he)) hrt
      unfold btreeGet at this ⊢
      rw [List.find?_cons_of_neg]
      · exact this
      · simp only [intvLess, Bool.not_eq_eq_eq_not, Bool.not_true,
          decide_eq_false_iff_not]
        omega

/-- Lookup `btreeGet` with the interval comparator reports not-found when no
stored range contains the query point. -/
theorem intvGet_none {l : List α} (hv : ∀ e ∈ l, lo e ≤ hi e)
    {k : α} {p : Nat} (hk1 : lo k = p) (hk2 : hi k = p)
    (hout : ∀ r ∈ l, ¬ (lo r ≤ p ∧ p ≤ hi r)) :
    btreeGet (intvLess lo hi) l k = none := by
  induction l with
  | nil => rfl
  | cons h t ih =>
    by_cases hph : p ≤ hi h
    · have hlo : ¬ lo h ≤ p := fun hc => hout h (by simp) ⟨hc, hph⟩
      unfold btreeGet
      rw [List.find?_cons_of_pos]
      · simp only
        rw [if_pos]
        simp only [intvLess, decide_eq_true_eq]
        omega
      · simp only [intvLess, Bool.not_eq_eq_eq_not, Bool.not_true,
          decide_eq_false_iff_not]
        omega
    · have := ih (fun e he => hv e (List.mem_cons_of_mem h he))
        (fun r hr => hout r (List.mem_cons_of_mem h hr))
      unfold btreeGet at this ⊢
      rw [List.find?_cons_of_neg]
      · exact this
      · simp only [intvLess, Bool.not_eq_eq_eq_not, Bool.not_true,
          decide_eq_false_iff_not]
        omega

/-- Inserting a valid range disjoint from everything stored keeps the list
sorted and adds exactly that range. -/
theorem intvInsert_disjoint {l : List α} (hs : intvSorted lo hi l)
    (hv : ∀ e ∈ l, lo e ≤ hi e) {x : α} (hvx : lo x ≤ hi x)
    (hd : ∀ e ∈ l, intvDisjoint lo hi x e) :
    intvSorted lo hi (btreeInsert (intvLess lo hi) x l) ∧
    (∀ y, y ∈ btreeInsert (intvLess lo hi) x l ↔ y = x ∨ y ∈ l) := by
  induction l with
  | nil =>
    refine ⟨List.chain'_singleton x, ?_⟩
    intro y; simp [btreeInsert]
  | cons h t ih =>
    have hvh : lo h ≤ hi h := hv h (by simp)
    rcases hd h (by simp) with hxh | hhx
    · -- `x` ends before `h` begins: `x` goes in front.
      have hless : intvLess lo hi h x = false := by
        simp only [intvLess, decide_eq_false_iff_not]; omega
      have hless' : intvLess lo hi x h = true := by
        simp only [intvLess, decide_eq_true_eq]; omega
      rw [btreeInsert_cons_gt hless hless']
      constructor
      · exact List.chain'_cons.mpr ⟨hxh, hs⟩
      · intro y; simp
    · -- `h` ends before `x` begins: keep `h`, insert into the tail.
      have hless : intvLess lo hi h x = true := by
        simp only [intvLess, decide_eq_true_eq]; omega
      obtain ⟨ihs, ihm⟩ := ih (intvSorted_tail lo hi hs)
        (fun e he => hv e (List.mem_cons_of_mem h he))
        (fun e he => hd e (List.mem_cons_of_mem h he))
      rw [btreeInsert_cons_lt hless]
      constructor
      · rw [intvSorted, List.chain'_cons']
        refine ⟨?_, ihs⟩
        intro z hz
        have hzm : z ∈ btreeInsert (intvLess lo hi) x t := by
          cases hbi : btreeInsert (intvLess lo hi) x t with
          | nil => rw [hbi] at hz; cases hz
          | cons a l =>
            rw [hbi] at hz
            simp only [List.head?_cons, Option.mem_def, Option.some.injEq] at hz
            rw [← hz]
            exact List.mem_cons_self a l
        rcases (ihm z).mp hzm with rfl | hzt
        · exact hhx
        · exact intvSorted_head_lt lo hi hs hv z hzt
      · intro y
        rw [List.mem_cons, ihm y, List.mem_cons]
        tauto

/-- Folding disjoint valid ranges into a sorted accumulator yields a sorted
list holding exactly the accumulator's and the inserted ranges. -/
theorem intvBuild_good : ∀ (rs acc : List α), intvSorted lo hi acc →
    (∀ e ∈ acc, lo e ≤ hi e) → (∀ r ∈ rs, lo r ≤ hi r) →
    (∀ r ∈ rs, ∀ e ∈ acc, intvDisjoint lo hi r e) →
    List.Pairwise (intvDisjoint lo hi) rs →
    intvSorted lo hi (rs.foldl (fun a r => btreeInsert (intvLess lo hi) r a) acc) ∧
    (∀ y, y ∈ rs.foldl (fun a r => btreeInsert (intvLess lo hi) r a) acc ↔
      y ∈ acc ∨ y ∈ rs)
  | [], acc, hs, _, _, _, _ => by
    refine ⟨hs, ?_⟩; intro y; simp
  | r :: rs, acc, hs, hva, hvr, hd, hp => by
    have hvr0 : lo r ≤ hi r := hvr r (by simp)
    obtain ⟨hs', hm'⟩ := intvInsert_disjoint lo hi hs hva hvr0 (hd r (by simp))
    have hva' : ∀ e ∈ btreeInsert (intvLess lo hi) r acc, lo e ≤ hi e := by
      intro e he
      rcases (hm' e).mp he with rfl | hea
      · exact hvr0
      · exact hva e hea
    have hd' : ∀ s ∈ rs, ∀ e ∈ btreeInsert (intvLess lo hi) r acc,
        intvDisjoint lo hi s e := by
      intro s hsm e he
      rcases (hm' e).mp he with rfl | hea
      · rcases (List.pairwise_cons.mp hp).1 s hsm with h1 | h2
        · exact Or.inr h1
        · exact Or.inl h2
      · exact hd s (List.mem_cons_of_mem r hsm) e hea
    obtain ⟨hfs, hfm⟩ := intvBuild_good rs (btreeInsert (intvLess lo hi) r acc)
      hs' hva' (fun s hsm => hvr s (List.mem_cons_of_mem r hsm)) hd'
      (List.pairwise_cons.mp hp).2
    refine ⟨hfs, ?_⟩
    intro y
    rw [List.foldl_cons, hfm y, hm' y, List.mem_cons]
    tauto

/-- Insertion `ReplaceOrInsert` of a range overlapping a stored one replaces it:
after walking past the ranges ending before the new one begins, the first
stored range it meets is comparator-equal and is overwritten in place. -/
theorem intvInsert_replace {l1 l2 : List α} {e x : α}
    (h1 : ∀ a ∈ l1, hi a < lo x) (he1 : lo x ≤ hi e) (he2 : lo e ≤ hi x) :
    btreeInsert (intvLess lo hi) x (l1 ++ e :: l2) = l1 ++ x :: l2 := by
  induction l1 with
  | nil =>
    have hl : intvLess lo hi e x = false := by
      simp only [intvLess, decide_eq_false_iff_not]; omega
    have hl' : intvLess lo hi x e = false := by
      simp only [intvLess, decide_eq_false_iff_not]; omega
    simpa using btreeInsert_cons_eq hl hl'
  | cons a l1 ih =>
    have hl : intvLess lo hi a x = true := by
      simp only [intvLess, decide_eq_true_eq]
      exact h1 a (by simp)
    simp only [List.cons_append]
    rw [btreeInsert_cons_lt hl, ih (fun b hb => h1 b (List.mem_cons_of_mem a hb))]

end Interval
/-! ### Facts about the conversion loop -/

theorem lor128_eq_add : ∀ y, y < 64 → 128 ||| y = 128 + y := by decide

/-- The parked second byte `0x80 ||| (b &&& 0x3F)` always lies in
`[0x80, 0xBF]`; in particular it is never the idle sentinel `0`. -/
theorem secondByte_range (b : Nat) :
    0x80 ≤ 0x80 ||| (b &&& 0x3F) ∧ 0x80 ||| (b &&& 0x3F) ≤ 0xBF := by
  have hy : b &&& 63 ≤ 63 := Nat.and_le_right
  rw [lor128_eq_add _ (by omega)]
  omega

theorem latin1Expand_append (l1 l2 : List Nat) :
    latin1Expand (l1 ++ l2) = latin1Expand l1 ++ latin1Expand l2 := by
  simp [latin1Expand]

/-- The loop consumes at most the bytes it was given. -/
theorem latin1Loop_consumed_le (cap : Nat) (buf out : List Nat) :
    (latin1Loop cap buf out).2.1 ≤ buf.length := by
  induction buf generalizing out with
  | nil => simp [latin1Loop]
  | cons b rest ih =>
    unfold latin1Loop
    split
    · simp
    · split
      · simpa using Nat.succ_le_succ (ih (out ++ [b]))
      · split
        · simp
        · simpa using Nat.succ_le_succ
            (ih (out ++ [0xC0 ||| ((b &&& 0xC0) >>> 6), 0x80 ||| (b &&& 0x3F)]))

/-- A nonzero final `currentChar` comes from a consumed source byte. -/
theorem latin1Loop_cc_consumed (cap : Nat) (buf out : List Nat) :
    (latin1Loop cap buf out).2.2 = 0 ∨ 1 ≤ (latin1Loop cap buf out).2.1 := by
  cases buf with
  | nil => exact Or.inl rfl
  | cons b rest =>
    unfold latin1Loop
    split
    · exact Or.inl rfl
    · split
      · exact Or.inr (Nat.le_add_left 1 _)
      · split
        · exact Or.inr (Nat.le_refl 1)
        · exact Or.inr (Nat.le_add_left 1 _)

/-- A nonzero final `currentChar` is the second expansion byte of some
source byte `b ≥ 0x80` of the loop's input. -/
theorem latin1Loop_cc_source (cap : Nat) (buf out : List Nat) :
    (latin1Loop cap buf out).2.2 = 0 ∨
    ∃ b ∈ buf, 0x80 ≤ b ∧ (latin1Loop cap buf out).2.2 = 0x80 ||| (b &&& 0x3F) := by
  induction buf generalizing out with
  | nil => simp [latin1Loop]
  | cons b rest ih =>
    unfold latin1Loop
    split
    · simp
    · split
      · rcases ih (out ++ [b]) with h0 | ⟨c, hc, hcr⟩
        · exact Or.inl h0
        · exact Or.inr ⟨c, List.mem_cons_of_mem b hc, hcr⟩
      · split
        · refine Or.inr ⟨b, List.mem_cons_self b rest, by omega, rfl⟩
        · rcases ih (out ++ [0xC0 ||| ((b &&& 0xC0) >>> 6), 0x80 ||| (b &&& 0x3F)]) with
            h0 | ⟨c, hc, hcr⟩
          · exact Or.inl h0
          · exact Or.inr ⟨c, List.mem_cons_of_mem b hc, hcr⟩

/-- The loop only appends to the buffer it was given. -/
theorem latin1Loop_extends (cap : Nat) (buf out : List Nat) :
    ∃ ex, (latin1Loop cap buf out).1 = out ++ ex := by
  induction buf generalizing out with
  | nil => exact ⟨[], by simp [latin1Loop]⟩
  | cons b rest ih =>
    unfold latin1Loop
    split
    · exact ⟨[], by simp⟩
    · split
      · obtain ⟨ex, hex⟩ := ih (out ++ [b])
        exact ⟨[b] ++ ex, by simp [hex]⟩
      · split
        · exact ⟨[0xC0 ||| ((b &&& 0xC0) >>> 6)], rfl⟩
        · obtain ⟨ex, hex⟩ := ih (out ++ [0xC0 ||| ((b &&& 0xC0) >>> 6), 0x80 ||| (b &&& 0x3F)])
          exact ⟨[0xC0 ||| ((b &&& 0xC0) >>> 6), 0x80 ||| (b &&& 0x3F)] ++ ex, by simp [hex]⟩

/-- With room left in the buffer and input available, the loop consumes at
least one source byte. -/
theorem latin1Loop_consumes (cap : Nat) (b : Nat) (rest out : List Nat)
    (hroom : out.length < cap) : 1 ≤ (latin1Loop cap (b :: rest) out).2.1 := by
  unfold latin1Loop
  split
  · omega
  · split
    · simp only; omega
    · split
      · simp
      · simp only; omega

/-- With room left in the buffer, the loop writes at least one byte for a
nonempty input. -/
theorem latin1Loop_writes (cap : Nat) (b : Nat) (rest out : List Nat)
    (hroom : out.length < cap) :
    out.length < (latin1Loop cap (b :: rest) out).1.length := by
  unfold latin1Loop
  split
  · omega
  · split
    · show out.length < (latin1Loop cap rest (out ++ [b])).1.length
      obtain ⟨ex, hex⟩ := latin1Loop_extends cap rest (out ++ [b])
      rw [hex]
      simp
    · split
      · show out.length < (out ++ [0xC0 ||| ((b &&& 0xC0) >>> 6)]).length
        simp
      · show out.length <
          (latin1Loop cap rest
            (out ++ [0xC0 ||| ((b &&& 0xC0) >>> 6), 0x80 ||| (b &&& 0x3F)])).1.length
        obtain ⟨ex, hex⟩ := latin1Loop_extends cap rest
          (out ++ [0xC0 ||| ((b &&& 0xC0) >>> 6), 0x80 ||| (b &&& 0x3F)])
        rw [hex]
        simp

/-- The conservation identity: what the loop wrote, plus what it parked,
plus the expansion of what it left unconsumed, is the buffer it started
with plus the expansion of its whole input. -/
theorem latin1Loop_ident (cap : Nat) (buf out : List Nat) :
    (latin1Loop cap buf out).1 ++ pendBytes (latin1Loop cap buf out).2.2 ++
      latin1Expand (buf.drop (latin1Loop cap buf out).2.1) =
    out ++ latin1Expand buf := by
  induction buf generalizing out with
  | nil => simp [latin1Loop, pendBytes, latin1Expand]
  | cons b rest ih =>
    unfold latin1Loop
    split
    · simp [pendBytes, latin1Expand]
    · split
      · -- plain byte
        have := ih (out ++ [b])
        simp only at this ⊢
        rw [List.drop_succ_cons, this]
        simp only [latin1Expand, List.map_cons, List.flatten_cons, latin1ExpandByte]
        rw [if_pos (by assumption)]
        simp
      · split
        · -- expansion split across the buffer boundary
          have h2 := secondByte_range b
          simp only [List.drop_succ_cons, List.drop_zero, pendBytes, if_pos (by omega : ¬ (0x80 ||| (b &&& 0x3F)) = 0)]
          simp only [latin1Expand, List.map_cons, List.flatten_cons, latin1ExpandByte]
          rw [if_neg (by omega : ¬ b < 0x80)]
          simp
        · -- both expansion bytes fit
          have := ih (out ++ [0xC0 ||| ((b &&& 0xC0) >>> 6), 0x80 ||| (b &&& 0x3F)])
          simp only at this ⊢
          rw [List.drop_succ_cons, this]
          simp only [latin1Expand, List.map_cons, List.flatten_cons, latin1ExpandByte]
          rw [if_neg (by omega : ¬ b < 0x80)]
          simp


/-- Closed form of `Read`.  The `err == io.EOF && currentChar != 0`
special case at the end of the Go function is dead code: `io.EOF` implies
a zero-byte raw read, the pending byte was already flushed and zeroed
before the loop, and an empty loop input leaves `currentChar` at `0` — so
the returned error flag is always exactly the raw read's `io.EOF` flag,
and the final seek lands on `pos + i` for `i` consumed source bytes. -/
theorem latin1Read_eq (flr : fileLatin1Reader) (cap : Nat) :
    flr.Read cap =
      ((latin1R flr cap).1,
       decide ((latin1Buf flr cap).length = 0 ∧ 0 < cap),
       ⟨flr.src, flr.pos + (latin1R flr cap).2.1, (latin1R flr cap).2.2⟩) := by
  have hle := latin1Loop_consumed_le cap (latin1Buf flr cap) (pendBytes flr.currentChar)
  unfold fileLatin1Reader.Read
  rw [if_neg]
  · show ((latin1R flr cap).1, _, _) = _
    refine congrArg _ (congrArg _ ?_)
    show fileLatin1Reader.mk _ _ _ = fileLatin1Reader.mk _ _ _
    refine congrArg (fun p => fileLatin1Reader.mk flr.src p (latin1R flr cap).2.2) ?_
    show (((flr.pos : Int) + (latin1Buf flr cap).length) +
      (((latin1R flr cap).2.1 : Int) - (latin1Buf flr cap).length)).toNat =
      flr.pos + (latin1R flr cap).2.1
    omega
  · rintro ⟨⟨hn0, -⟩, hcc⟩
    have hbuf : latin1Buf flr cap = [] := List.length_eq_zero.mp hn0
    apply hcc
    show (latin1R flr cap).2.2 = 0
    unfold latin1R
    rw [hbuf]
    rfl

theorem take_append_drop_take (l : List α) (cap : Nat) :
    l.take cap ++ l.drop (l.take cap).length = l := by
  rw [List.length_take]
  rcases Nat.le_total cap l.length with h | h
  · rw [Nat.min_eq_left h]; exact List.take_append_drop cap l
  · rw [Nat.min_eq_right h, List.drop_length, List.take_of_length_le h, List.append_nil]

theorem drop_of_take_split (l : List α) (cap i : Nat) (hi : i ≤ (l.take cap).length) :
    l.drop i = (l.take cap).drop i ++ l.drop (l.take cap).length := by
  conv_lhs => rw [← take_append_drop_take l cap]
  rw [List.drop_append_of_le_length hi]

/-- One call to `Read` with a nonempty caller buffer: the file contents
are unchanged; the offset moves forward, staying inside the file; the
call's output followed by the new state's outstanding bytes equals the
old state's outstanding bytes (the backward seek makes the next call
resume at the first unconsumed source byte); the output is empty exactly
at the fully-drained idle state; and a productive call decreases the
termination measure. -/
theorem latin1Read_spec (flr : fileLatin1Reader) (cap : Nat) (hcap : 1 ≤ cap)
    (hpos : flr.pos ≤ flr.src.length) :
    (flr.Read cap).2.2.src = flr.src ∧
    flr.pos ≤ (flr.Read cap).2.2.pos ∧
    (flr.Read cap).2.2.pos ≤ flr.src.length ∧
    (flr.Read cap).1 ++ latin1Rest (flr.Read cap).2.2 = latin1Rest flr ∧
    ((flr.Read cap).1 = [] ↔ (flr.src.length ≤ flr.pos ∧ flr.currentChar = 0)) ∧
    ((flr.Read cap).1 ≠ [] → latin1Measure (flr.Read cap).2.2 < latin1Measure flr) := by
  rw [latin1Read_eq]
  unfold latin1R latin1Buf
  set buf := (flr.src.drop flr.pos).take cap with hbufdef
  set r := latin1Loop cap buf (pendBytes flr.currentChar) with hrdef
  have hbufle : buf.length ≤ flr.src.length - flr.pos := by
    rw [hbufdef]
    simp only [List.length_take, List.length_drop]
    omega
  have hbufpos : flr.src.length ≤ flr.pos → buf = [] := by
    intro h
    rw [hbufdef, List.drop_eq_nil_of_le h]
    exact List.take_nil
  have hbufne : flr.pos < flr.src.length → buf ≠ [] := by
    intro h hnil
    have := congrArg List.length hnil
    rw [hbufdef] at this
    simp only [List.length_take, List.length_drop, List.length_nil] at this
    omega
  have hi_le : r.2.1 ≤ buf.length := latin1Loop_consumed_le cap buf (pendBytes flr.currentChar)
  have hident := latin1Loop_ident cap buf (pendBytes flr.currentChar)
  have hccor : r.2.2 = 0 ∨ 1 ≤ r.2.1 :=
    latin1Loop_cc_consumed cap buf (pendBytes flr.currentChar)
  obtain ⟨ex, hex⟩ := latin1Loop_extends cap buf (pendBytes flr.currentChar)
  refine ⟨rfl, Nat.le_add_right _ _, by simp only; omega, ?_, ?_, ?_⟩
  · -- conservation
    show r.1 ++ (pendBytes r.2.2 ++ latin1Expand (flr.src.drop (flr.pos + r.2.1))) =
      pendBytes flr.currentChar ++ latin1Expand (flr.src.drop flr.pos)
    have hdropi : flr.src.drop (flr.pos + r.2.1) =
        buf.drop r.2.1 ++ (flr.src.drop flr.pos).drop buf.length := by
      rw [← List.drop_drop, hbufdef]
      exact drop_of_take_split (flr.src.drop flr.pos) cap _ hi_le
    have hdrop0 : flr.src.drop flr.pos =
        buf ++ (flr.src.drop flr.pos).drop buf.length := by
      rw [hbufdef]
      exact (take_append_drop_take (flr.src.drop flr.pos) cap).symm
    rw [hdropi]
    conv_rhs => rw [hdrop0]
    rw [latin1Expand_append, latin1Expand_append]
    simp only [← List.append_assoc]
    rw [hident]
  · -- emptiness
    constructor
    · intro h0
      by_cases hcc0 : flr.currentChar = 0
      · refine ⟨?_, hcc0⟩
        by_contra hlt
        push_neg at hlt
        obtain ⟨b, rest, hbr⟩ := List.exists_cons_of_ne_nil (hbufne hlt)
        have hw := latin1Loop_writes cap b rest (pendBytes flr.currentChar)
          (by simp [pendBytes, hcc0]; omega)
        rw [← hbr] at hw
        rw [← hrdef] at hw
        rw [h0] at hw
        simp [pendBytes, hcc0] at hw
      · rw [h0] at hex
        simp [pendBytes, hcc0] at hex
    · rintro ⟨hLp, hcc0⟩
      rw [hrdef, hbufpos hLp, hcc0]
      simp [pendBytes, latin1Loop]
  · -- measure decrease
    intro hne
    have hle1 : flr.pos + r.2.1 ≤ flr.src.length := by omega
    rcases hccor with h0 | h1
    · by_cases hi : 1 ≤ r.2.1
      · simp only [latin1Measure]
        split_ifs <;> omega
      · have hi0 : r.2.1 = 0 := by omega
        have hcc0 : flr.currentChar ≠ 0 := by
          intro hcc0
          by_cases hbe : buf = []
          · apply hne
            rw [hrdef, hbe, hcc0]
            simp [pendBytes, latin1Loop]
          · obtain ⟨b, rest, hbr⟩ := List.exists_cons_of_ne_nil hbe
            have hw := latin1Loop_consumes cap b rest (pendBytes flr.currentChar)
              (by simp [pendBytes, hcc0]; omega)
            rw [← hbr] at hw
            rw [← hrdef] at hw
            omega
        simp only [latin1Measure, hi0, h0]
        simp [hcc0]
    · simp only [latin1Measure]
      split_ifs <;> omega

/-- Draining a valid reader state with enough fuel yields exactly the
state's outstanding bytes, independently of the buffer size. -/
theorem latin1Drain_spec : ∀ (fuel : Nat) (flr : fileLatin1Reader) (cap : Nat),
    1 ≤ cap → flr.pos ≤ flr.src.length → latin1Measure flr < fuel →
    latin1Drain fuel flr cap = latin1Rest flr := by
  intro fuel
  induction fuel with
  | zero => intro flr cap _ _ h; omega
  | succ fuel ih =>
    intro flr cap hcap hpos hm
    obtain ⟨ha, hb, hc, hd, he, hf⟩ := latin1Read_spec flr cap hcap hpos
    show (if (flr.Read cap).1.length = 0 then []
      else (flr.Read cap).1 ++ latin1Drain fuel (flr.Read cap).2.2 cap) = latin1Rest flr
    by_cases h0 : (flr.Read cap).1.length = 0
    · rw [if_pos h0]
      obtain ⟨hLp, hcc⟩ := he.mp (List.length_eq_zero.mp h0)
      unfold latin1Rest
      rw [hcc, List.drop_eq_nil_of_le hLp]
      simp [pendBytes, latin1Expand]
    · rw [if_neg h0]
      have hne : (flr.Read cap).1 ≠ [] := by
        intro h
        exact h0 (by rw [h]; rfl)
      rw [ih (flr.Read cap).2.2 cap hcap (by rw [ha]; exact hc)
        (by have := hf hne; omega)]
      exact hd

theorem ctrySorted_head_lt {h : Country} {t : List Country}
    (hs : ctrySorted (h :: t)) : ∀ e ∈ t, h.Code < e.Code := by
  induction t generalizing h with
  | nil => intro e he; cases he
  | cons m t ih =>
    intro e he
    have hhm : h.Code < m.Code := (List.chain'_cons.mp hs).1
    cases he with
    | head => exact hhm
    | tail _ hmem =>
      exact lt_trans hhm (ih (h := m) (List.chain'_cons.mp hs).2 e hmem)

/-- Exact-key hit: `Get` on a sorted country list returns the stored
entry whose code equals the query. -/
theorem ctryGet_mem {l : Countries} (hs : ctrySorted l) {code : String}
    {c : Country} (hc : c ∈ l) (he : c.Code = code) :
    Countries.Get l code = some c := by
  induction l with
  | nil => cases hc
  | cons h t ih =>
    by_cases hph : h.Code < code
    · have hct : c ∈ t := by
        cases hc with
        | head => exact absurd he (by intro hx; rw [hx] at hph; exact lt_irrefl _ hph)
        | tail _ hmem => exact hmem
      have := ih (hs.tail) hct
      unfold Countries.Get btreeGet at this ⊢
      rw [List.find?_cons_of_neg]
      · exact this
      · simp only [Country.Less, Bool.not_eq_eq_eq_not, Bool.not_true,
          decide_eq_false_iff_not, not_not]
        exact hph
    · have hch : c = h := by
        cases hc with
        | head => rfl
        | tail _ hmem =>
          have := ctrySorted_head_lt hs c hmem
          rw [he] at this
          exact absurd this hph
      subst hch
      unfold Countries.Get btreeGet
      rw [List.find?_cons_of_pos]
      · simp only
        rw [if_neg]
        simp only [Country.Less, decide_eq_true_eq]
        rw [← he]
        exact lt_irrefl _
      · simp only [Country.Less, Bool.not_eq_eq_eq_not, Bool.not_true,
          decide_eq_false_iff_not]
        exact hph

/-- Exact-key miss: `Get` reports not-found when no stored entry carries
the queried code (no sortedness needed). -/
theorem ctryGet_none {l : Countries} {code : String}
    (hno : ∀ c ∈ l, c.Code ≠ code) :
    Countries.Get l code = none := by
  induction l with
  | nil => rfl
  | cons h t ih =>
    by_cases hph : h.Code < code
    · have := ih (fun c hc => hno c (List.mem_cons_of_mem h hc))
      unfold Countries.Get btreeGet at this ⊢
      rw [List.find?_cons_of_neg]
      · exact this
      · simp only [Country.Less, Bool.not_eq_eq_eq_not, Bool.not_true,
          decide_eq_false_iff_not, not_not]
        exact hph
    · unfold Countries.Get btreeGet
      rw [List.find?_cons_of_pos]
      · simp only
        rw [if_pos]
        simp only [Country.Less, decide_eq_true_eq]
        rcases lt_trichotomy code h.Code with h1 | h1 | h1
        · exact h1
        · exact absurd h1.symm (hno h (by simp))
        · exact absurd h1 hph
      · simp only [Country.Less, Bool.not_eq_eq_eq_not, Bool.not_true,
          decide_eq_false_iff_not]
        exact hph

/-- Inserting a country whose code differs from every stored code keeps
the list sorted and adds exactly that entry. -/
theorem ctryInsert_distinct {l : Countries} (hs : ctrySorted l)
    {x : Country} (hd : ∀ e ∈ l, x.Code ≠ e.Code) :
    ctrySorted (btreeInsert Country.Less x l) ∧
    (∀ y, y ∈ btreeInsert Country.Less x l ↔ y = x ∨ y ∈ l) := by
  induction l with
  | nil =>
    refine ⟨List.chain'_singleton x, ?_⟩
    intro y; simp [btreeInsert]
  | cons h t ih =>
    rcases lt_trichotomy x.Code h.Code with hxh | hxh | hxh
    · have hless : Country.Less h x = false := by
        simp only [Country.Less, decide_eq_false_iff_not]
        exact fun hc => lt_asymm hxh hc
      have hless' : Country.Less x h = true := by
        simp only [Country.Less, decide_eq_true_eq]
        exact hxh
      rw [btreeInsert_cons_gt hless hless']
      constructor
      · exact List.chain'_cons.mpr ⟨hxh, hs⟩
      · intro y; simp
    · exact absurd hxh (hd h (by simp))
    · have hless : Country.Less h x = true := by
        simp only [Country.Less, decide_eq_true_eq]
        exact hxh
      obtain ⟨ihs, ihm⟩ := ih hs.tail (fun e he => hd e (List.mem_cons_of_mem h he))
      rw [btreeInsert_cons_lt hless]
      constructor
      · rw [ctrySorted, List.chain'_cons']
        refine ⟨?_, ihs⟩
        intro z hz
        have hzm : z ∈ btreeInsert Country.Less x t := by
          cases hbi : btreeInsert Country.Less x t with
          | nil => rw [hbi] at hz; cases hz
          | cons a m =>
            rw [hbi] at hz
            simp only [List.head?_cons, Option.mem_def, Option.some.injEq] at hz
            rw [← hz]
            exact List.mem_cons_self a m
        rcases (ihm z).mp hzm with rfl | hzt
        · exact hxh
        · exact ctrySorted_head_lt hs z hzt
      · intro y
        rw [List.mem_cons, ihm y, List.mem_cons]
        tauto

/-- Folding countries with pairwise-distinct codes into a sorted
accumulator keeps it sorted and adds exactly those entries. -/
theorem ctryBuild_good : ∀ (cs acc : List Country), ctrySorted acc →
    (∀ c ∈ cs, ∀ e ∈ acc, c.Code ≠ e.Code) →
    List.Pairwise (fun a b => a.Code ≠ b.Code) cs →
    ctrySorted (cs.foldl (fun a c => btreeInsert Country.Less c a) acc) ∧
    (∀ y, y ∈ cs.foldl (fun a c => btreeInsert Country.Less c a) acc ↔
      y ∈ acc ∨ y ∈ cs)
  | [], acc, hs, _, _ => by
    refine ⟨hs, ?_⟩; intro y; simp
  | c :: cs, acc, hs, hd, hp => by
    obtain ⟨hs', hm'⟩ := ctryInsert_distinct hs (hd c (by simp))
    have hd' : ∀ s ∈ cs, ∀ e ∈ btreeInsert Country.Less c acc, s.Code ≠ e.Code := by
      intro s hsm e he
      rcases (hm' e).mp he with rfl | hea
      · exact fun hx => (List.pairwise_cons.mp hp).1 s hsm hx.symm
      · exact hd s (List.mem_cons_of_mem c hsm) e hea
    obtain ⟨hfs, hfm⟩ := ctryBuild_good cs (btreeInsert Country.Less c acc)
      hs' hd' (List.pairwise_cons.mp hp).2
    refine ⟨hfs, ?_⟩
    intro y
    rw [List.foldl_cons, hfm y, hm' y, List.mem_cons]
    tauto

/-! ## Facts about the loaders -/

/-- A malformed blocks row (wrong column count or an unparsable numeric
field) leaves the tree untouched. -/
theorem blocksStep_skip (t : Blocks) (row : List String)
    (h : row.length ≠ 3 ∨ goParseUint32 (row.getD 0 "") = none ∨
      goParseUint32 (row.getD 1 "") = none ∨ goParseUint32 (row.getD 2 "") = none) :
    blocksStep t row = t := by
  by_cases hlen : row.length = 3
  · unfold blocksStep
    rw [if_pos hlen]
    rcases hv0 : goParseUint32 (row.getD 0 "") with _ | a <;>
      rcases hv1 : goParseUint32 (row.getD 1 "") with _ | b <;>
      rcases hv2 : goParseUint32 (row.getD 2 "") with _ | c <;>
      simp_all
  · unfold blocksStep
    rw [if_neg hlen]

/-- A malformed ASN row leaves the tree untouched. -/
theorem asnStep_skip (t : ASNs) (row : List String)
    (h : row.length ≠ 3 ∨ goParseUint32 (row.getD 0 "") = none ∨
      goParseUint32 (row.getD 1 "") = none) :
    asnStep t row = t := by
  by_cases hlen : row.length = 3
  · unfold asnStep
    rw [if_pos hlen]
    rcases hv0 : goParseUint32 (row.getD 0 "") with _ | a <;>
      rcases hv1 : goParseUint32 (row.getD 1 "") with _ | b <;>
      simp_all
  · unfold asnStep
    rw [if_neg hlen]

/-- A panicked locations load stays panicked for the rest of the rows. -/
theorem locFold_none (cnt : Nat) : ∀ rows : List (List String),
    List.foldl (locStep cnt) none rows = none
  | [] => rfl
  | _ :: rows => locFold_none cnt rows

/-- A row whose id lies outside the allocated slice panics the load. -/
theorem locStep_panics (cnt : Nat) (row : List String) (locId : Int)
    (hlen : row.length = 9) (hid : goAtoi (row.getD 0 "") = some locId)
    (hout : (cnt : Int) ≤ locId) (ll : List Location) :
    locStep cnt (some ll) row = none := by
  unfold locStep
  simp only [hlen, if_pos, hid]
  rw [if_neg]
  omega

/-! ## The claims -/

/-- C1: for every collection of valid (`low ≤ high`), pairwise
non-overlapping range records inserted into a range index — `Blocks` or
`ASNs` — and every point `p`: if `p` lies inside some stored range `r`
then `Get(p)` returns exactly that record, and if `p` lies outside every
stored range then `Get(p)` returns not-found (`nil`). -/
theorem claim_C1 (bs : List Block) (hbv : ∀ r ∈ bs, r.LowIP ≤ r.HighIP)
    (hbd : bs.Pairwise (fun a b => a.HighIP < b.LowIP ∨ b.HighIP < a.LowIP))
    (as : List GeoIP.ASN) (hav : ∀ r ∈ as, r.LowIP ≤ r.HighIP)
    (had : as.Pairwise (fun a b => a.HighIP < b.LowIP ∨ b.HighIP < a.LowIP))
    (p : Nat) :
    (∀ r ∈ bs, r.LowIP ≤ p → p ≤ r.HighIP →
      Blocks.Get (bs.foldl (fun t r => btreeInsert Block.Less r t) []) p = some r) ∧
    ((∀ r ∈ bs, ¬ (r.LowIP ≤ p ∧ p ≤ r.HighIP)) →
      Blocks.Get (bs.foldl (fun t r => btreeInsert Block.Less r t) []) p = none) ∧
    (∀ r ∈ as, r.LowIP ≤ p → p ≤ r.HighIP →
      ASNs.Get (as.foldl (fun t r => btreeInsert ASN.Less r t) []) p = some r) ∧
    ((∀ r ∈ as, ¬ (r.LowIP ≤ p ∧ p ≤ r.HighIP)) →
      ASNs.Get (as.foldl (fun t r => btreeInsert ASN.Less r t) []) p = none) := by
  obtain ⟨hbs, hbm⟩ := intvBuild_good Block.LowIP Block.HighIP bs []
    List.chain'_nil (by simp) hbv (by simp) hbd
  obtain ⟨has, ham⟩ := intvBuild_good ASN.LowIP ASN.HighIP as []
    List.chain'_nil (by simp) hav (by simp) had
  have hbt : ∀ e ∈ bs.foldl (fun t r => btreeInsert Block.Less r t) [],
      e.LowIP ≤ e.HighIP := by
    intro e he
    rcases (hbm e).mp he with h | h
    · cases h
    · exact hbv e h
  have hat : ∀ e ∈ as.foldl (fun t r => btreeInsert ASN.Less r t) [],
      e.LowIP ≤ e.HighIP := by
    intro e he
    rcases (ham e).mp he with h | h
    · cases h
    · exact hav e h
  refine ⟨?_, ?_, ?_, ?_⟩
  · intro r hr h1 h2
    exact intvGet_mem Block.LowIP Block.HighIP hbs hbt rfl rfl
      ((hbm r).mpr (Or.inr hr)) h1 h2
  · intro hout
    refine intvGet_none Block.LowIP Block.HighIP hbt rfl rfl ?_
    intro r hr
    rcases (hbm r).mp hr with h | h
    · cases h
    · exact hout r h
  · intro r hr h1 h2
    exact intvGet_mem ASN.LowIP ASN.HighIP has hat rfl rfl
      ((ham r).mpr (Or.inr hr)) h1 h2
  · intro hout
    refine intvGet_none ASN.LowIP ASN.HighIP hat rfl rfl ?_
    intro r hr
    rcases (ham r).mp hr with h | h
    · cases h
    · exact hout r h

/-- Witness for C1 at concrete indexes: the point 25 hits `[20,30]`, the
point 15 lies outside every ASN range. -/
theorem claim_C1_witness :
    Blocks.Get (([⟨0, 10, 1⟩, ⟨20, 30, 2⟩] : List Block).foldl
      (fun t r => btreeInsert Block.Less r t) []) 25 = some ⟨20, 30, 2⟩ ∧
    ASNs.Get (([⟨0, 10, "AS1"⟩] : List GeoIP.ASN).foldl
      (fun t r => btreeInsert ASN.Less r t) []) 15 = none :=
  ⟨(claim_C1 [⟨0, 10, 1⟩, ⟨20, 30, 2⟩] (by decide) (by decide)
      [⟨0, 10, "AS1"⟩] (by decide) (by decide) 25).1 ⟨20, 30, 2⟩ (by decide)
      (by decide) (by decide),
   (claim_C1 [⟨0, 10, 1⟩, ⟨20, 30, 2⟩] (by decide) (by decide)
      [⟨0, 10, "AS1"⟩] (by decide) (by decide) 15).2.2.2 (by decide)⟩

/-- C2: for every byte source and every destination-buffer size of at
least one byte, the concatenation of the outputs of repeated `Read` calls
equals the reference per-byte expansion of the whole source — so the
output is independent of the buffer size. -/
theorem claim_C2 (src : List Nat) (hbytes : ∀ b ∈ src, b < 256)
    (cap : Nat) (hcap : 1 ≤ cap) :
    latin1Drain (2 * src.length + 1) ⟨src, 0, 0⟩ cap = latin1Expand src := by
  rw [latin1Drain_spec (2 * src.length + 1) ⟨src, 0, 0⟩ cap hcap (by simp)
    (by simp [latin1Measure])]
  unfold latin1Rest
  simp [pendBytes]

/-- Witness for C2: the repository test's sample drained with buffer
sizes 1, 3 and 5 always equals the reference expansion. -/
theorem claim_C2_witness :
    latin1Drain 53 ⟨latin1Sample, 0, 0⟩ 1 = latin1Expand latin1Sample ∧
    latin1Drain 53 ⟨latin1Sample, 0, 0⟩ 3 = latin1Expand latin1Sample ∧
    latin1Drain 53 ⟨latin1Sample, 0, 0⟩ 5 = latin1Expand latin1Sample :=
  ⟨claim_C2 latin1Sample (by decide) 1 (by decide),
   claim_C2 latin1Sample (by decide) 3 (by decide),
   claim_C2 latin1Sample (by decide) 5 (by decide)⟩

/-- C3: after every `Read` call the underlying file has been repositioned
(seek backward by the over-read amount) so that its offset equals the
offset at the start of the call plus the number of source bytes consumed
in this call (`(latin1R flr cap).2.1`, the loop's `i`); the offset never
moves backward or beyond the file, and consequently the call's output
followed by the new state's outstanding bytes is exactly the old state's
outstanding bytes — the next call resumes at the first unconsumed source
byte. -/
theorem claim_C3 (flr : fileLatin1Reader) (cap : Nat) (hcap : 1 ≤ cap)
    (hpos : flr.pos ≤ flr.src.length) :
    (flr.Read cap).2.2.src = flr.src ∧
    (flr.Read cap).2.2.pos = flr.pos + (latin1R flr cap).2.1 ∧
    flr.pos ≤ (flr.Read cap).2.2.pos ∧
    (flr.Read cap).2.2.pos ≤ flr.src.length ∧
    (flr.Read cap).1 ++ latin1Rest (flr.Read cap).2.2 = latin1Rest flr := by
  obtain ⟨ha, hb, hc, hd, -, -⟩ := latin1Read_spec flr cap hcap hpos
  exact ⟨ha, by rw [latin1Read_eq], hb, hc, hd⟩

/-- Witness for C3 at a concrete reader: a high byte split by a 1-byte
buffer still leaves the file positioned on the first unconsumed byte. -/
theorem claim_C3_witness :
    (fileLatin1Reader.Read ⟨[0xC0, 0x41], 0, 0⟩ 1).2.2.src = [0xC0, 0x41] ∧
    (fileLatin1Reader.Read ⟨[0xC0, 0x41], 0, 0⟩ 1).2.2.pos =
      0 + (latin1R ⟨[0xC0, 0x41], 0, 0⟩ 1).2.1 ∧
    0 ≤ (fileLatin1Reader.Read ⟨[0xC0, 0x41], 0, 0⟩ 1).2.2.pos ∧
    (fileLatin1Reader.Read ⟨[0xC0, 0x41], 0, 0⟩ 1).2.2.pos ≤ 2 ∧
    (fileLatin1Reader.Read ⟨[0xC0, 0x41], 0, 0⟩ 1).1 ++
      latin1Rest (fileLatin1Reader.Read ⟨[0xC0, 0x41], 0, 0⟩ 1).2.2 =
      latin1Rest ⟨[0xC0, 0x41], 0, 0⟩ :=
  claim_C3 ⟨[0xC0, 0x41], 0, 0⟩ 1 (by decide) (by decide)

/-- C4 (divergence witness): when the file is at end-of-stream and a
pending byte remains, the `Read` call does emit the pending byte but
returns it together with the `io.EOF` flag (`true`), not as a successful
read with no end-of-stream signal: the `err == io.EOF && currentChar != 0`
special case is dead code because the pending byte is flushed and zeroed
before that check and `os.File` reports `io.EOF` only on zero-byte reads.
The pending byte is never lost: a full drain of the one-high-byte file
still yields both expansion bytes. -/
theorem claim_C4_divergence :
    fileLatin1Reader.Read ⟨[0xC0], 1, 0x80⟩ 1 = ([0x80], true, ⟨[0xC0], 1, 0⟩) ∧
    latin1Drain 3 ⟨[0xC0], 0, 0⟩ 1 = [0xC3, 0x80] ∧
    (latin1Expand [0xC0]).length = 2 := by
  refine ⟨rfl, rfl, rfl⟩

/-- C5: the degenerate point-range form is exact-match lookup with the
same container: for every set of country entries with pairwise distinct
codes inserted into a `Countries` index, `Get(code)` returns the entry
whose `Code` equals the query exactly, and `nil` when no stored entry
carries the code. -/
theorem claim_C5 (cs : List Country)
    (hd : cs.Pairwise (fun a b => a.Code ≠ b.Code)) (code : String) :
    (∀ c ∈ cs, c.Code = code →
      Countries.Get (cs.foldl (fun t c => btreeInsert Country.Less c t) []) code =
        some c) ∧
    ((∀ c ∈ cs, c.Code ≠ code) →
      Countries.Get (cs.foldl (fun t c => btreeInsert Country.Less c t) []) code =
        none) := by
  obtain ⟨hs, hm⟩ := ctryBuild_good cs [] List.chain'_nil (by simp) hd
  constructor
  · intro c hc he
    exact ctryGet_mem hs ((hm c).mpr (Or.inr hc)) he
  · intro hno
    refine ctryGet_none ?_
    intro c hc
    rcases (hm c).mp hc with h | h
    · cases h
    · exact hno c h

/-- Witness for C5: the spec's example — inserting `("FR","France")` and
`("US","États-Unis")` gives `Get("FR") = ("FR","France")` and
`Get("ZZ") = nil`. -/
theorem claim_C5_witness :
    Countries.Get (([⟨"FR", "France"⟩, ⟨"US", "États-Unis"⟩] : List Country).foldl
      (fun t c => btreeInsert Country.Less c t) []) "FR" = some ⟨"FR", "France"⟩ ∧
    Countries.Get (([⟨"FR", "France"⟩, ⟨"US", "États-Unis"⟩] : List Country).foldl
      (fun t c => btreeInsert Country.Less c t) []) "ZZ" = none :=
  ⟨(claim_C5 [⟨"FR", "France"⟩, ⟨"US", "États-Unis"⟩] (by decide) "FR").1
      ⟨"FR", "France"⟩ (by decide) (by decide),
   (claim_C5 [⟨"FR", "France"⟩, ⟨"US", "États-Unis"⟩] (by decide) "ZZ").2 (by decide)⟩

/-- C6: a lookup never errors when there is nothing to find — `Get` on an
index holding zero ranges returns `nil` for every query, and `GeoLocIPv4`
against never-successfully-loaded tables (locations, blocks or ASN tree
absent) returns `nil` rather than panicking. -/
theorem claim_C6 :
    (∀ p : Nat, Blocks.Get [] p = none) ∧
    (∀ p : Nat, ASNs.Get [] p = none) ∧
    (∀ code : String, Countries.Get [] code = none) ∧
    (∀ locations blocks asn_tree countries_tree regions_tree (ip : IPv4),
      locations = none ∨ blocks = none ∨ asn_tree = none →
      GeoLocIPv4 locations blocks asn_tree countries_tree regions_tree ip =
        .notFound) := by
  refine ⟨fun _ => rfl, fun _ => rfl, fun _ => rfl, ?_⟩
  intro locations blocks asn_tree ct rt ip h
  cases locations <;> cases blocks <;> cases asn_tree <;> simp_all [GeoLocIPv4]

/-- Witness for C6: lookup against a package whose blocks table never
loaded reports not-found. -/
theorem claim_C6_witness :
    GeoLocIPv4 (some []) none (some []) none none (54, 88, 55, 63) =
      GeoResult.notFound :=
  claim_C6.2.2.2 (some []) none (some []) none none (54, 88, 55, 63)
    (Or.inr (Or.inl rfl))

/-- C7: during a range-table load every row with a column count other
than 3, or whose numeric fields fail to parse as decimal `uint32`, is
skipped without aborting the load and inserts no record; a table with one
well-formed line followed by one wrong-column-count line loads exactly
one entry. -/
theorem claim_C7 :
    (∀ (pre post : List (List String)) (row : List String),
      row.length ≠ 3 ∨ goParseUint32 (row.getD 0 "") = none ∨
        goParseUint32 (row.getD 1 "") = none ∨ goParseUint32 (row.getD 2 "") = none →
      LoadBlocksFile (pre ++ row :: post) = LoadBlocksFile (pre ++ post)) ∧
    (∀ (pre post : List (List String)) (row : List String),
      row.length ≠ 3 ∨ goParseUint32 (row.getD 0 "") = none ∨
        goParseUint32 (row.getD 1 "") = none →
      LoadASNFile (pre ++ row :: post) = LoadASNFile (pre ++ post)) ∧
    btreeSize (LoadBlocksFile [["16777216", "16777471", "17"], ["1", "2"]]) = 1 := by
  refine ⟨?_, ?_, ?_⟩
  · intro pre post row h
    unfold LoadBlocksFile
    rw [List.foldl_append, List.foldl_append, List.foldl_cons,
      blocksStep_skip _ row h]
  · intro pre post row h
    unfold LoadASNFile
    rw [List.foldl_append, List.foldl_append, List.foldl_cons,
      asnStep_skip _ row h]
  · rfl

/-- Witness for C7: dropping a malformed row changes nothing. -/
theorem claim_C7_witness :
    LoadBlocksFile [["16777216", "16777471", "17"], ["1", "2"]] =
      LoadBlocksFile [["16777216", "16777471", "17"]] ∧
    LoadASNFile [["bad", "2", "AS1"], ["1", "2", "AS2"]] =
      LoadASNFile [["1", "2", "AS2"]] :=
  ⟨claim_C7.1 [["16777216", "16777471", "17"]] [] ["1", "2"] (by decide),
   claim_C7.2.1 [] [["1", "2", "AS2"]] ["bad", "2", "AS1"] (by decide)⟩

/-- C8: insert never errors on overlapping ranges; inserting a range that
overlaps (is comparator-equal to) a stored range silently replaces that
stored range in place, so the last-inserted range wins there.  Stated for
both `Blocks` and `ASNs`: with every earlier-stored range ending before
the new range begins and `e` overlapping the new range `x`, the insert
rewrites exactly `e` to `x`. -/
theorem claim_C8 :
    (∀ (l1 l2 : List Block) (e x : Block),
      (∀ a ∈ l1, a.HighIP < x.LowIP) → x.LowIP ≤ e.HighIP → e.LowIP ≤ x.HighIP →
      btreeInsert Block.Less x (l1 ++ e :: l2) = l1 ++ x :: l2) ∧
    (∀ (l1 l2 : List GeoIP.ASN) (e x : GeoIP.ASN),
      (∀ a ∈ l1, a.HighIP < x.LowIP) → x.LowIP ≤ e.HighIP → e.LowIP ≤ x.HighIP →
      btreeInsert ASN.Less x (l1 ++ e :: l2) = l1 ++ x :: l2) :=
  ⟨fun _ _ _ _ h1 h2 h3 => intvInsert_replace Block.LowIP Block.HighIP h1 h2 h3,
   fun _ _ _ _ h1 h2 h3 => intvInsert_replace ASN.LowIP ASN.HighIP h1 h2 h3⟩

/-- Witness for C8: `[5,20]` overlaps the stored `[0,10]` and replaces
it. -/
theorem claim_C8_witness :
    btreeInsert Block.Less ⟨5, 20, 7⟩ ([] ++ (⟨0, 10, 5⟩ : Block) :: []) =
      [] ++ (⟨5, 20, 7⟩ : Block) :: [] ∧
    btreeInsert ASN.Less ⟨5, 20, "AS2"⟩ ([] ++ (⟨0, 10, "AS1"⟩ : GeoIP.ASN) :: []) =
      [] ++ (⟨5, 20, "AS2"⟩ : GeoIP.ASN) :: [] :=
  ⟨claim_C8.1 [] [] ⟨0, 10, 5⟩ ⟨5, 20, 7⟩ (by simp) (by decide) (by decide),
   claim_C8.2 [] [] ⟨0, 10, "AS1"⟩ ⟨5, 20, "AS2"⟩ (by simp) (by decide) (by decide)⟩

/-- C9: location-id indexing is unguarded at the public interface — when
`GeoLocIPv4` finds a block whose `LocId` does not lie inside the loaded
locations slice the access `locations[block.LocId]` panics, and a
locations row whose id is at least the file's line count panics
`LoadLocFile` through the write `loc_list[locId]`. -/
theorem claim_C9 :
    (∀ (locs : List Location) (blks : Blocks) (asns : ASNs)
      (ct : Option Countries) (rt : Option Regions) (ip : IPv4) (block : Block),
      Blocks.Get blks (ipv4Addr ip) = some block →
      locs.length ≤ block.LocId →
      GeoLocIPv4 (some locs) (some blks) (some asns) ct rt ip = .panicked) ∧
    (∀ (pre post : List (List String)) (row : List String) (locId : Int),
      row.length = 9 →
      goAtoi (row.getD 0 "") = some locId →
      (((pre ++ row :: post).length : Nat) : Int) ≤ locId →
      LoadLocFile (pre ++ row :: post) = none) := by
  constructor
  · intro locs blks asns ct rt ip block hget hlen
    unfold GeoLocIPv4
    simp only [hget]
    rw [dif_neg]
    omega
  · intro pre post row locId hlen hid hout
    unfold LoadLocFile
    rw [List.foldl_append, List.foldl_cons]
    cases hst : List.foldl (locStep (pre ++ row :: post).length)
        (some (List.replicate (pre ++ row :: post).length
          ⟨"", "", "", "", "", "", "", ""⟩)) pre with
    | none => exact locFold_none _ post
    | some ll =>
      rw [locStep_panics _ row locId hlen hid hout ll]
      exact locFold_none _ post

/-- Witness for C9: a one-block index with `LocId = 5` over an empty
locations slice panics the lookup, and a single row with id `5` in a
one-line file panics the load. -/
theorem claim_C9_witness :
    GeoLocIPv4 (some []) (some [⟨0, 10, 5⟩]) (some []) none none (0, 0, 0, 3) =
      GeoResult.panicked ∧
    LoadLocFile [["5", "US", "VA", "Ashburn", "20147", "39", "-77", "511", "703"]] =
      none :=
  ⟨claim_C9.1 [] [⟨0, 10, 5⟩] [] none none (0, 0, 0, 3) ⟨0, 10, 5⟩ (by decide)
      (by decide),
   claim_C9.2 [] [] ["5", "US", "VA", "Ashburn", "20147", "39", "-77", "511", "703"]
      5 (by decide) (by decide) (by decide)⟩

/-- C10: the pending-byte encoding is sound — after any `Read` call with
a nonempty buffer, a nonzero `currentChar` is the second byte of a 2-byte
expansion of some source byte `b ≥ 0x80` and always lies in
`[0x80, 0xBF]`, so it can never be confused with the idle sentinel `0`;
and a call that begins with a nonzero `currentChar` flushes it into the
first output slot (the field is zeroed before the conversion loop runs). -/
theorem claim_C10 (flr : fileLatin1Reader) (cap : Nat) (hcap : 1 ≤ cap) :
    ((flr.Read cap).2.2.currentChar = 0 ∨
      (0x80 ≤ (flr.Read cap).2.2.currentChar ∧
       (flr.Read cap).2.2.currentChar ≤ 0xBF ∧
       ∃ b, b ∈ flr.src ∧ 0x80 ≤ b ∧
         (flr.Read cap).2.2.currentChar = 0x80 ||| (b &&& 0x3F))) ∧
    (flr.currentChar ≠ 0 → (flr.Read cap).1.head? = some flr.currentChar) := by
  rw [latin1Read_eq]
  dsimp only
  unfold latin1R
  constructor
  · rcases latin1Loop_cc_source cap (latin1Buf flr cap) (pendBytes flr.currentChar)
      with h0 | ⟨b, hb, hble, hbeq⟩
    · exact Or.inl h0
    · have hmem : b ∈ flr.src :=
        List.mem_of_mem_drop (List.mem_of_mem_take hb)
      have hr := secondByte_range b
      rw [hbeq]
      exact Or.inr ⟨by omega, by omega, b, hmem, hble, rfl⟩
  · intro hcc
    obtain ⟨ex, hex⟩ :=
      latin1Loop_extends cap (latin1Buf flr cap) (pendBytes flr.currentChar)
    rw [hex]
    simp [pendBytes, hcc]

/-- Witness for C10: a call that begins with pending byte `0x80` flushes
it first and its final `currentChar` is again a valid second byte. -/
theorem claim_C10_witness :
    ((fileLatin1Reader.Read ⟨[0xC0], 1, 0x80⟩ 1).2.2.currentChar = 0 ∨
      (0x80 ≤ (fileLatin1Reader.Read ⟨[0xC0], 1, 0x80⟩ 1).2.2.currentChar ∧
       (fileLatin1Reader.Read ⟨[0xC0], 1, 0x80⟩ 1).2.2.currentChar ≤ 0xBF ∧
       ∃ b, b ∈ [0xC0] ∧ 0x80 ≤ b ∧
         (fileLatin1Reader.Read ⟨[0xC0], 1, 0x80⟩ 1).2.2.currentChar =
           0x80 ||| (b &&& 0x3F))) ∧
    ((0x80 : Nat) ≠ 0 →
      (fileLatin1Reader.Read ⟨[0xC0], 1, 0x80⟩ 1).1.head? = some 0x80) :=
  claim_C10 ⟨[0xC0], 1, 0x80⟩ 1 (by decide)

end GeoIP

